import Mathlib

/-!
Verification of the LMSR prediction-market engine (`app/lmsr.py`,
`app/commands.py`, `app/models.py`, `app/tasks.py`).

The Python code computes with IEEE floats; the embedding idealises floats
as real numbers.  Error sentinels (`float("inf")` returns, raised
`PredictionsError`s) are modelled by `Option`/`Except`: `none`/`.error`
marks the paths on which the source returns an infinity or raises.
-/

open scoped Classical

namespace Predictions

/-- Python `max(qs)` over a non-empty list (`0` as junk value on `[]`,
which the source never reaches because it guards `if not qs` first). -/
def listMax : List ℝ → ℝ
  | [] => 0
  | x :: xs => xs.foldl max x

/-- `lmsr_cost` (`app/lmsr.py`, lines 9-53).  The source returns `0.0` for
an empty vector, `inf` for `b <= 0` or a non-positive sum of shifted
exponentials, and otherwise `b * (m + log s)` with the log-sum-exp shift
`m = max(qs)/b`.  `none` stands for the `float("inf")` error returns; the
final `isinf`/`isnan` classification never fires over the reals. -/
noncomputable def lmsr_cost (qs : List ℝ) (b : ℝ) : Option ℝ :=
  if qs = [] then some 0
  else if b ≤ 0 then none
  else
    let m := listMax qs / b
    let s := (qs.map (fun q => Real.exp (q / b - m))).sum
    if s ≤ 0 then none
    else some (b * (m + Real.log s))

/-- `lmsr_prices` (`app/lmsr.py`, lines 56-88): normalized shifted
exponentials, with a uniform fallback for `b <= 0` or a degenerate sum. -/
noncomputable def lmsr_prices (qs : List ℝ) (b : ℝ) : List ℝ :=
  if qs = [] then []
  else if b ≤ 0 then List.replicate qs.length (1 / qs.length)
  else
    let m := listMax qs / b
    let exps := qs.map (fun q => Real.exp (q / b - m))
    let s := exps.sum
    if s ≤ 0 then List.replicate qs.length (1 / qs.length)
    else exps.map (fun e => e / s)

/-- `buy_cost` (`app/lmsr.py`, lines 91-113): cost difference of bumping
index `idx` by `dq`; `inf` (here `none`) on invalid arguments, on an
infinite intermediate cost, or on a negative difference.  Indices are
naturals, as the callers only pass enumeration indices. -/
noncomputable def buy_cost (qs : List ℝ) (b : ℝ) (idx : ℕ) (dq : ℝ) : Option ℝ :=
  if dq ≤ 0 ∨ b ≤ 0 ∨ qs = [] ∨ qs.length ≤ idx then none
  else
    -- qs2 = qs with qs2[idx] += dq
    match lmsr_cost qs b, lmsr_cost (qs.set idx (qs.getD idx 0 + dq)) b with
    | some c1, some c2 => if c2 - c1 < 0 then none else some (c2 - c1)
    | _, _ => none

/-- `sell_refund` (`app/lmsr.py`, lines 116-123): `0.0` when the guard
`dq <= 0 or qs[idx] < dq` fires, otherwise the clamped cost difference.
`none` marks the path on which the source would compute `inf - inf = nan`
(only reachable for `b <= 0`, which no caller produces). -/
noncomputable def sell_refund (qs : List ℝ) (b : ℝ) (idx : ℕ) (dq : ℝ) : Option ℝ :=
  if dq ≤ 0 ∨ qs.getD idx 0 < dq then some 0
  else
    -- qs2 = qs with qs2[idx] -= dq
    match lmsr_cost qs b, lmsr_cost (qs.set idx (qs.getD idx 0 - dq)) b with
    | some c1, some c2 => some (max 0 (c1 - c2))
    | _, _ => none

/-! ### Basic list lemmas used throughout -/

theorem getD_map_of_lt {α β : Type} (f : α → β) (d : α) (d' : β) :
    ∀ (l : List α) (n : ℕ), n < l.length → (l.map f).getD n d' = f (l.getD n d)
  | [], n, h => absurd h (by simp)
  | x :: xs, 0, _ => rfl
  | x :: xs, n + 1, h => by
    simpa using getD_map_of_lt f d d' xs n (by simpa using h)

theorem getD_set_self {α : Type} (d v : α) :
    ∀ (l : List α) (n : ℕ), n < l.length → (l.set n v).getD n d = v
  | [], n, h => absurd h (by simp)
  | x :: xs, 0, _ => rfl
  | x :: xs, n + 1, h => by
    simpa using getD_set_self d v xs n (by simpa using h)

theorem getD_set_ne {α : Type} (d v : α) :
    ∀ (l : List α) (n i : ℕ), i ≠ n → (l.set n v).getD i d = l.getD i d
  | [], _, _, _ => by simp
  | x :: xs, 0, 0, h => absurd rfl h
  | x :: xs, 0, i + 1, _ => by simp
  | x :: xs, n + 1, 0, _ => rfl
  | x :: xs, n + 1, i + 1, h => by
    simpa using getD_set_ne d v xs n i (fun hc => h (by omega))

/-- Sum of a mapped list after a single `set`, in terms of the old sum. -/
theorem sum_map_set (f : ℝ → ℝ) (v : ℝ) :
    ∀ (l : List ℝ) (n : ℕ), n < l.length →
      ((l.set n v).map f).sum = (l.map f).sum - f (l.getD n 0) + f v
  | [], n, h => absurd h (by simp)
  | x :: xs, 0, _ => by simp [List.sum_cons]; ring
  | x :: xs, n + 1, h => by
    have ih := sum_map_set f v xs n (by simpa using h)
    simp only [List.set, List.map, List.sum_cons, List.getD_cons_succ, ih]
    ring

/-- Any single mapped entry of a positive-valued map is strictly below the
whole sum once the list has at least two entries. -/
theorem single_lt_sum (f : ℝ → ℝ) (hf : ∀ x : ℝ, 0 < f x) :
    ∀ (l : List ℝ) (n : ℕ), n < l.length → 2 ≤ l.length →
      f (l.getD n 0) < (l.map f).sum
  | [], n, h, _ => absurd h (by simp)
  | x :: xs, 0, _, h2 => by
    have hxs : xs ≠ [] := by
      intro h; subst h; simp at h2
    have hpos : 0 < (xs.map f).sum :=
      List.sum_pos _ (by intro y hy; obtain ⟨z, _, rfl⟩ := List.mem_map.1 hy; exact hf z)
        (by simpa using hxs)
    simp only [List.getD_cons_zero, List.map, List.sum_cons]
    linarith
  | x :: xs, n + 1, h, _ => by
    have hlen : n < xs.length := by simpa using h
    have hx : 0 < f x := hf x
    rcases Nat.lt_or_ge xs.length 2 with hs | hs
    · -- xs has exactly one element, so the getD entry is its sum
      match xs, hlen with
      | [y], hlen =>
        have hn : n = 0 := by simp at hlen; omega
        subst hn
        simp only [List.getD_cons_succ, List.getD_cons_zero, List.map, List.sum_cons,
          List.sum_nil]
        linarith
    · have ih := single_lt_sum f hf xs n hlen hs
      simp only [List.getD_cons_succ, List.map, List.sum_cons]
      linarith

/-! ### The shift-free closed form of the cost and prices -/

/-- Unshifted sum of exponentials `S = Σ exp(q/b)`. -/
noncomputable def expSum (qs : List ℝ) (b : ℝ) : ℝ :=
  (qs.map (fun q => Real.exp (q / b))).sum

theorem expSum_pos (qs : List ℝ) (b : ℝ) (h : qs ≠ []) : 0 < expSum qs b :=
  List.sum_pos _
    (by intro y hy; obtain ⟨z, _, rfl⟩ := List.mem_map.1 hy; exact Real.exp_pos _)
    (by simpa using h)

theorem shifted_sum_eq (qs : List ℝ) (b m : ℝ) :
    (qs.map (fun q => Real.exp (q / b - m))).sum = Real.exp (-m) * expSum qs b := by
  unfold expSum
  induction qs with
  | nil => simp
  | cons x xs ih =>
    simp only [List.map_cons, List.sum_cons, ih]
    rw [sub_eq_add_neg, Real.exp_add]
    ring

/-- The log-sum-exp shift cancels exactly over the reals: for `b > 0` and a
non-empty vector the cost is `b * log (Σ exp (q/b))`. -/
theorem lmsr_cost_eq {qs : List ℝ} {b : ℝ} (h : qs ≠ []) (hb : 0 < b) :
    lmsr_cost qs b = some (b * Real.log (expSum qs b)) := by
  unfold lmsr_cost
  rw [if_neg h, if_neg (not_le.mpr hb)]
  have hsum := shifted_sum_eq qs b (listMax qs / b)
  have hS := expSum_pos qs b h
  have hpos : 0 < (qs.map (fun q => Real.exp (q / b - listMax qs / b))).sum := by
    rw [hsum]; positivity
  simp only [if_neg (not_le.mpr hpos)]
  congr 1
  rw [hsum, Real.log_mul (ne_of_gt (Real.exp_pos _)) (ne_of_gt hS), Real.log_exp]
  ring

/-- Normalized form of the prices: for `b > 0` and a non-empty vector the
price list is `q ↦ exp(q/b) / S`. -/
theorem lmsr_prices_eq {qs : List ℝ} {b : ℝ} (h : qs ≠ []) (hb : 0 < b) :
    lmsr_prices qs b = qs.map (fun q => Real.exp (q / b) / expSum qs b) := by
  unfold lmsr_prices
  rw [if_neg h, if_neg (not_le.mpr hb)]
  have hsum := shifted_sum_eq qs b (listMax qs / b)
  have hS := expSum_pos qs b h
  have hpos : 0 < (qs.map (fun q => Real.exp (q / b - listMax qs / b))).sum := by
    rw [hsum]; positivity
  simp only [if_neg (not_le.mpr hpos), List.map_map]
  apply List.map_congr_left
  intro a _
  simp only [Function.comp_apply]
  rw [hsum, sub_eq_add_neg, Real.exp_add,
    mul_comm (Real.exp (-(listMax qs / b))) (expSum qs b),
    mul_div_mul_right _ _ (ne_of_gt (Real.exp_pos (-(listMax qs / b))))]

/-! ### C1: the all-zero vector has a finite (uniform) cost -/

theorem listMax_replicate_zero : ∀ n : ℕ, 1 ≤ n → listMax (List.replicate n 0) = 0 := by
  intro n hn
  match n, hn with
  | n + 1, _ =>
    show (List.replicate n (0:ℝ)).foldl max 0 = 0
    induction n with
    | zero => rfl
    | succ k ih => simpa [List.replicate_succ, max_self] using ih

theorem expSum_replicate_zero (n : ℕ) (b : ℝ) :
    expSum (List.replicate n 0) b = n := by
  unfold expSum
  induction n with
  | zero => simp
  | succ k ih =>
    simp only [List.replicate_succ, List.map_cons, List.sum_cons, ih]
    rw [zero_div, Real.exp_zero]
    push_cast
    ring

/-- C1: for every `b > 0` and outcome count `n ≥ 2`, the cost of the
all-zero quantity vector is the finite value `b * log n`, not an error. -/
theorem lmsr_cost_zero_vector (n : ℕ) (b : ℝ) (hn : 2 ≤ n) (hb : 0 < b) :
    lmsr_cost (List.replicate n 0) b = some (b * Real.log n) := by
  have hne : List.replicate n (0:ℝ) ≠ [] := by
    intro h
    have := congrArg List.length h
    simp at this
    omega
  rw [lmsr_cost_eq hne hb, expSum_replicate_zero]

/-- Witness for C1 at `n = 2`, `b = 1`. -/
theorem lmsr_cost_zero_vector_witness :
    2 ≤ 2 ∧ (0:ℝ) < 1 ∧
      lmsr_cost (List.replicate 2 0) 1 = some (1 * Real.log 2) := by
  refine ⟨le_refl 2, one_pos, ?_⟩
  have h := lmsr_cost_zero_vector 2 1 (le_refl 2) one_pos
  simpa using h

/-! ### Cost deltas of a single bump -/

theorem expSum_set (qs : List ℝ) (b v : ℝ) {idx : ℕ} (hidx : idx < qs.length) :
    expSum (qs.set idx v) b =
      expSum qs b - Real.exp (qs.getD idx 0 / b) + Real.exp (v / b) :=
  sum_map_set (fun q => Real.exp (q / b)) v qs idx hidx

theorem expSum_bump_lt {qs : List ℝ} {b dq : ℝ} {idx : ℕ}
    (hb : 0 < b) (hdq : 0 < dq) (hidx : idx < qs.length) :
    expSum qs b < expSum (qs.set idx (qs.getD idx 0 + dq)) b := by
  rw [expSum_set qs b _ hidx]
  have : Real.exp (qs.getD idx 0 / b) < Real.exp ((qs.getD idx 0 + dq) / b) := by
    apply Real.exp_lt_exp.mpr
    apply div_lt_div_of_pos_right _ hb
    linarith
  linarith

theorem set_ne_nil (qs : List ℝ) {idx : ℕ} (v : ℝ) (hidx : idx < qs.length) :
    qs.set idx v ≠ [] := by
  intro h
  have h0 : (qs.set idx v).length = 0 := by rw [h]; rfl
  rw [List.length_set] at h0
  omega

theorem ne_nil_of_idx_lt {qs : List ℝ} {idx : ℕ} (hidx : idx < qs.length) : qs ≠ [] := by
  intro h
  subst h
  simp at hidx

/-- Closed form of `buy_cost` on valid inputs: the guard branches never
fire because the cost difference is non-negative. -/
theorem buy_cost_eq {qs : List ℝ} {b dq : ℝ} {idx : ℕ}
    (hb : 0 < b) (hdq : 0 < dq) (hidx : idx < qs.length) :
    buy_cost qs b idx dq =
      some (b * Real.log (expSum (qs.set idx (qs.getD idx 0 + dq)) b)
            - b * Real.log (expSum qs b)) := by
  have hne := ne_nil_of_idx_lt hidx
  have hne2 := set_ne_nil qs (qs.getD idx 0 + dq) hidx
  have hS := expSum_pos qs b hne
  have hlt := expSum_bump_lt hb hdq hidx
  unfold buy_cost
  rw [if_neg (by push_neg; exact ⟨hdq, hb, hne, hidx⟩)]
  rw [lmsr_cost_eq hne hb, lmsr_cost_eq hne2 hb]
  have hlog : Real.log (expSum qs b) ≤
      Real.log (expSum (qs.set idx (qs.getD idx 0 + dq)) b) :=
    Real.log_le_log hS hlt.le
  have : ¬ (b * Real.log (expSum (qs.set idx (qs.getD idx 0 + dq)) b)
      - b * Real.log (expSum qs b) < 0) := by
    push_neg
    have := mul_le_mul_of_nonneg_left hlog hb.le
    linarith
  simp only [this, if_false]

/-- On valid inputs the buy cost is strictly positive. -/
theorem buy_cost_pos {qs : List ℝ} {b dq : ℝ} {idx : ℕ}
    (hb : 0 < b) (hdq : 0 < dq) (hidx : idx < qs.length) :
    ∃ c, buy_cost qs b idx dq = some c ∧ 0 < c := by
  refine ⟨_, buy_cost_eq hb hdq hidx, ?_⟩
  have hne := ne_nil_of_idx_lt hidx
  have hS := expSum_pos qs b hne
  have hlt := expSum_bump_lt hb hdq hidx
  have hlog : Real.log (expSum qs b) <
      Real.log (expSum (qs.set idx (qs.getD idx 0 + dq)) b) :=
    Real.log_lt_log hS hlt
  have := mul_lt_mul_of_pos_left hlog hb
  linarith

/-- Round trip: selling `dq` right after buying it, at the post-buy
quantities, refunds exactly the buy cost (path independence of the LMSR
cost function over the reals). -/
theorem roundtrip_refund_eq_cost {qs : List ℝ} {b dq : ℝ} {idx : ℕ}
    (hb : 0 < b) (hdq : 0 < dq) (hidx : idx < qs.length)
    (hq : 0 ≤ qs.getD idx 0) :
    sell_refund (qs.set idx (qs.getD idx 0 + dq)) b idx dq = buy_cost qs b idx dq := by
  have hne := ne_nil_of_idx_lt hidx
  have hne2 := set_ne_nil qs (qs.getD idx 0 + dq) hidx
  have hidx2 : idx < (qs.set idx (qs.getD idx 0 + dq)).length := by
    simpa using hidx
  have hget : (qs.set idx (qs.getD idx 0 + dq)).getD idx 0 = qs.getD idx 0 + dq :=
    getD_set_self 0 _ qs idx hidx
  have hS := expSum_pos qs b hne
  have hlt := expSum_bump_lt hb hdq hidx
  -- the double set collapses: removing the dq just bought restores expSum qs b
  have hSback : expSum ((qs.set idx (qs.getD idx 0 + dq)).set idx
      (qs.getD idx 0 + dq - dq)) b = expSum qs b := by
    rw [expSum_set _ b _ hidx2, hget, expSum_set qs b _ hidx]
    have : qs.getD idx 0 + dq - dq = qs.getD idx 0 := by ring
    rw [this]
    ring
  unfold sell_refund
  rw [if_neg (by push_neg; exact ⟨hdq, by rw [hget]; linarith⟩)]
  rw [hget]
  have hne3 : (qs.set idx (qs.getD idx 0 + dq)).set idx
      (qs.getD idx 0 + dq - dq) ≠ [] := set_ne_nil _ _ hidx2
  rw [lmsr_cost_eq hne2 hb, lmsr_cost_eq hne3 hb, hSback, buy_cost_eq hb hdq hidx]
  have hlog : Real.log (expSum qs b) ≤
      Real.log (expSum (qs.set idx (qs.getD idx 0 + dq)) b) :=
    Real.log_le_log hS hlt.le
  have hnonneg : 0 ≤ b * Real.log (expSum (qs.set idx (qs.getD idx 0 + dq)) b)
      - b * Real.log (expSum qs b) := by
    have := mul_le_mul_of_nonneg_left hlog hb.le
    linarith
  simp only [max_eq_right hnonneg]

/-! ### C3 (corrected): the round trip refunds exactly the cost paid -/

/-- C3 counterexample: at `qs = [0,0]`, `b = 1`, `idx = 0`, `dq = 1` the
refund of the immediate round trip is EQUAL to the (strictly positive)
buy cost, so the refund is not strictly below the cost for `dq > 0` and
equality is not only a `dq → 0` limit. -/
theorem roundtrip_counterexample :
    ∃ c, buy_cost [0, 0] 1 0 1 = some c ∧ sell_refund [1, 0] 1 0 1 = some c ∧
      0 < c ∧
      ¬ (∀ r c', sell_refund [1, 0] 1 0 1 = some r →
          buy_cost [0, 0] 1 0 1 = some c' → r < c') := by
  have hidx : 0 < ([0, 0] : List ℝ).length := by simp
  obtain ⟨c, hc, hcpos⟩ := @buy_cost_pos [0, 0] 1 1 0 one_pos one_pos hidx
  have hset : ([0, 0] : List ℝ).set 0 (([0, 0] : List ℝ).getD 0 0 + 1) = [1, 0] := by
    norm_num [List.set]
  have hrt := @roundtrip_refund_eq_cost [0, 0] 1 1 0 one_pos one_pos hidx (by norm_num)
  rw [hset] at hrt
  refine ⟨c, hc, hrt.trans hc, hcpos, ?_⟩
  intro hall
  exact absurd (hall c c (hrt.trans hc) hc) (lt_irrefl c)

/-- C3 (amended): for every quantity vector with a non-negative quantity
at `idx`, buying `dq > 0` and immediately selling the same `dq` at the
post-buy quantities refunds exactly the buy cost paid — the refund is
never more than the cost (it is equal), for every `dq`, not only in the
`dq → 0` limit. -/
theorem roundtrip_refund_equals_buy_cost (qs : List ℝ) (b dq : ℝ) (idx : ℕ)
    (hb : 0 < b) (hdq : 0 < dq) (hidx : idx < qs.length)
    (hq : 0 ≤ qs.getD idx 0) :
    sell_refund (qs.set idx (qs.getD idx 0 + dq)) b idx dq = buy_cost qs b idx dq :=
  roundtrip_refund_eq_cost hb hdq hidx hq

/-- Witness for the amended C3 at `qs = [0,0]`, `b = 1`, `idx = 0`, `dq = 1`. -/
theorem roundtrip_refund_equals_buy_cost_witness :
    (0:ℝ) < 1 ∧ 0 < ([0, 0] : List ℝ).length ∧ (0:ℝ) ≤ ([0, 0] : List ℝ).getD 0 0 ∧
      sell_refund (([0, 0] : List ℝ).set 0 (([0, 0] : List ℝ).getD 0 0 + 1)) 1 0 1 =
        buy_cost [0, 0] 1 0 1 :=
  ⟨one_pos, by simp, by norm_num,
    roundtrip_refund_equals_buy_cost [0, 0] 1 1 0 one_pos one_pos (by simp) (by norm_num)⟩

/-! ### C5: buying an outcome raises its price, lowers every other -/

theorem sum_map_div (l : List ℝ) (f : ℝ → ℝ) (c : ℝ) :
    (l.map (fun x => f x / c)).sum = (l.map f).sum / c := by
  induction l with
  | nil => simp
  | cons x xs ih => simp [List.sum_cons, ih, add_div]

/-- C5: for `b > 0`, `dq > 0` and an in-range index `A` of a vector with at
least two outcomes (every market has ≥ 2), bumping `qs[A]` by `dq` strictly
raises the implied probability of `A`, strictly lowers every other
outcome's probability, and the new probabilities still sum to 1. -/
theorem lmsr_prices_buy_monotone (qs : List ℝ) (b dq : ℝ) (A : ℕ)
    (hb : 0 < b) (hdq : 0 < dq) (hA : A < qs.length) (hlen : 2 ≤ qs.length) :
    ((lmsr_prices qs b).getD A 0 <
        (lmsr_prices (qs.set A (qs.getD A 0 + dq)) b).getD A 0) ∧
    (∀ i, i < qs.length → i ≠ A →
        (lmsr_prices (qs.set A (qs.getD A 0 + dq)) b).getD i 0 <
          (lmsr_prices qs b).getD i 0) ∧
    (lmsr_prices (qs.set A (qs.getD A 0 + dq)) b).sum = 1 := by
  have hne := ne_nil_of_idx_lt hA
  have hne' := set_ne_nil qs (qs.getD A 0 + dq) hA
  have hA' : A < (qs.set A (qs.getD A 0 + dq)).length := by simpa using hA
  have hS := expSum_pos qs b hne
  have hS' := expSum_pos (qs.set A (qs.getD A 0 + dq)) b hne'
  have hSS' := expSum_bump_lt hb hdq hA
  rw [lmsr_prices_eq hne hb, lmsr_prices_eq hne' hb]
  have hE : Real.exp (qs.getD A 0 / b) < Real.exp ((qs.getD A 0 + dq) / b) := by
    apply Real.exp_lt_exp.mpr
    apply div_lt_div_of_pos_right _ hb
    linarith
  have hES : Real.exp (qs.getD A 0 / b) < expSum qs b := by
    have := single_lt_sum (fun q => Real.exp (q / b)) (fun _ => Real.exp_pos _)
      qs A hA hlen
    simpa [expSum] using this
  refine ⟨?_, ?_, ?_⟩
  · rw [getD_map_of_lt _ 0 0 qs A hA,
      getD_map_of_lt _ 0 0 _ A hA', getD_set_self 0 _ qs A hA]
    rw [div_lt_div_iff₀ hS hS']
    have hSeq := expSum_set qs b (qs.getD A 0 + dq) hA
    nlinarith [mul_pos (sub_pos.mpr hE) (sub_pos.mpr hES), Real.exp_pos (qs.getD A 0 / b)]
  · intro i hi hiA
    have hi' : i < (qs.set A (qs.getD A 0 + dq)).length := by simpa using hi
    rw [getD_map_of_lt _ 0 0 qs i hi, getD_map_of_lt _ 0 0 _ i hi',
      getD_set_ne 0 _ qs A i hiA]
    exact div_lt_div_of_pos_left (Real.exp_pos _) hS hSS'
  · rw [sum_map_div]
    exact div_self (ne_of_gt hS')

/-- Witness for C5 at `qs = [0,0]`, `b = 1`, `dq = 1`, `A = 0`. -/
theorem lmsr_prices_buy_monotone_witness :
    (0:ℝ) < 1 ∧ 0 < ([0, 0] : List ℝ).length ∧ 2 ≤ ([0, 0] : List ℝ).length ∧
      (lmsr_prices (([0, 0] : List ℝ).set 0 (([0, 0] : List ℝ).getD 0 0 + 1)) 1).sum
        = 1 :=
  ⟨one_pos, by simp, by simp,
    (lmsr_prices_buy_monotone [0, 0] 1 1 0 one_pos one_pos (by simp) (by simp)).2.2⟩

/-! ### C4 (corrected): the liquidity effect on the buy cost -/

/-- C4 counterexample: buying the trailing outcome of `qs = [0, 1]`
(`idx = 0`, `dq = 1`) is STRICTLY MORE expensive at the larger liquidity
`b2 = 2` than at `b1 = 1` — a larger `b` does not always yield a smaller
`buy_cost`. -/
theorem buy_cost_liquidity_counterexample :
    ∃ c1 c2, buy_cost [0, 1] 1 0 1 = some c1 ∧
      buy_cost [0, 1] 2 0 1 = some c2 ∧ c1 < c2 := by
  have hidx : 0 < ([0, 1] : List ℝ).length := by simp
  have hset : ([0, 1] : List ℝ).set 0 (([0, 1] : List ℝ).getD 0 0 + 1) = [0 + 1, 1] := by
    norm_num [List.set]
  have h1 := @buy_cost_eq [0, 1] 1 1 0 one_pos one_pos hidx
  have h2 := @buy_cost_eq [0, 1] 2 1 0 two_pos one_pos hidx
  rw [hset] at h1 h2
  have hE1 : expSum [(0:ℝ) + 1, 1] 1 = 2 * Real.exp 1 := by
    norm_num [expSum]; ring
  have hE2 : expSum [(0:ℝ), 1] 1 = 1 + Real.exp 1 := by
    norm_num [expSum, Real.exp_zero]
  have hE3 : expSum [(0:ℝ) + 1, 1] 2 = 2 * Real.exp (1 / 2) := by
    norm_num [expSum]; ring
  have hE4 : expSum [(0:ℝ), 1] 2 = 1 + Real.exp (1 / 2) := by
    norm_num [expSum, Real.exp_zero]
  rw [hE1, hE2] at h1
  rw [hE3, hE4] at h2
  refine ⟨_, _, h1, h2, ?_⟩
  set s : ℝ := Real.exp (1 / 2) with hs_def
  have hs0 : 0 < s := Real.exp_pos _
  have hs1 : 1 < s := by
    rw [hs_def, show (1:ℝ) = Real.exp 0 by simp]
    exact Real.exp_lt_exp.mpr (by norm_num)
  have he : Real.exp 1 = s * s := by
    rw [hs_def, ← Real.exp_add]; norm_num
  have h1s : (0:ℝ) < 1 + s := by linarith
  have h1ss : (0:ℝ) < 1 + s * s := by nlinarith
  have hkey : Real.log ((1 + s) * (1 + s)) < Real.log (2 * (1 + s * s)) := by
    apply Real.log_lt_log (by positivity)
    nlinarith [mul_pos (sub_pos.mpr hs1) (sub_pos.mpr hs1)]
  rw [Real.log_mul (ne_of_gt h1s) (ne_of_gt h1s),
    Real.log_mul two_ne_zero (ne_of_gt h1ss)] at hkey
  have hlog2e : Real.log (2 * Real.exp 1) = Real.log 2 + 1 := by
    rw [Real.log_mul two_ne_zero (Real.exp_ne_zero 1), Real.log_exp]
  have hlog2s : Real.log (2 * s) = Real.log 2 + 1 / 2 := by
    rw [Real.log_mul two_ne_zero (ne_of_gt hs0), hs_def, Real.log_exp]
  rw [hlog2e, hlog2s, he]
  linarith

/-- `getD` of an all-zero replicate list is `0` at every index. -/
theorem getD_replicate_zero : ∀ (n i : ℕ), (List.replicate n (0:ℝ)).getD i 0 = 0
  | 0, _ => by simp
  | _ + 1, 0 => rfl
  | n + 1, i + 1 => by
    simp [List.replicate_succ, getD_replicate_zero n i]

/-- Closed form of the fresh-market buy cost. -/
theorem buy_cost_replicate_zero {n idx : ℕ} {b dq : ℝ}
    (hb : 0 < b) (hdq : 0 < dq) (hidx : idx < n) :
    buy_cost (List.replicate n 0) b idx dq =
      some (b * Real.log (Real.exp (dq / b) + ((n:ℝ) - 1)) - b * Real.log n) := by
  have hidx' : idx < (List.replicate n (0:ℝ)).length := by simpa using hidx
  rw [buy_cost_eq hb hdq hidx']
  rw [expSum_set _ b _ hidx', getD_replicate_zero, expSum_replicate_zero]
  have harg : (n:ℝ) - Real.exp (0 / b) + Real.exp ((0 + dq) / b)
      = Real.exp (dq / b) + ((n:ℝ) - 1) := by
    rw [zero_div, Real.exp_zero, zero_add]
    ring
  rw [harg]

/-- `u ↦ log (exp u + c)` is strictly convex for `c > 0`: its derivative
`exp u / (exp u + c)` is strictly monotone. -/
theorem strictConvexOn_log_exp_add {c : ℝ} (hc : 0 < c) :
    StrictConvexOn ℝ Set.univ (fun u : ℝ => Real.log (Real.exp u + c)) := by
  have hd : ∀ x : ℝ, HasDerivAt (fun u : ℝ => Real.log (Real.exp u + c))
      (Real.exp x / (Real.exp x + c)) x := by
    intro x
    exact ((Real.hasDerivAt_exp x).add_const c).log (by positivity)
  have hderiv : deriv (fun u : ℝ => Real.log (Real.exp u + c))
      = fun x : ℝ => Real.exp x / (Real.exp x + c) := by
    funext x
    exact (hd x).deriv
  apply StrictMono.strictConvexOn_univ_of_deriv
  · exact (Real.continuous_exp.add continuous_const).log (by intro x; positivity)
  · rw [hderiv]
    intro a b hab
    rw [div_lt_div_iff₀ (by positivity) (by positivity)]
    have := Real.exp_lt_exp.mpr hab
    nlinarith [Real.exp_pos a, Real.exp_pos b]

/-- Chord-slope inequality from strict convexity, anchored at `0`:
for `0 < u2 < u1`, `ψ(u2) < (u2/u1) ψ(u1)` where `ψ u = log(exp u + c) - log(1 + c)`. -/
theorem log_exp_add_slope {c : ℝ} (hc : 0 < c) {u1 u2 : ℝ}
    (h2 : 0 < u2) (h21 : u2 < u1) :
    Real.log (Real.exp u2 + c) - Real.log (1 + c)
      < (u2 / u1) * (Real.log (Real.exp u1 + c) - Real.log (1 + c)) := by
  have h1 : 0 < u1 := h2.trans h21
  have hlam : 0 < u2 / u1 := div_pos h2 h1
  have hlam1 : u2 / u1 < 1 := (div_lt_one h1).mpr h21
  have hconv := (strictConvexOn_log_exp_add hc).2
    (Set.mem_univ (0:ℝ)) (Set.mem_univ u1) (by intro h; exact absurd h.symm (ne_of_gt h1))
    (show (0:ℝ) < 1 - u2 / u1 by linarith) hlam (by ring)
  have harg : (1 - u2 / u1) • (0:ℝ) + (u2 / u1) • u1 = u2 := by
    simp [smul_eq_mul]
    field_simp
  rw [harg] at hconv
  simp only [smul_eq_mul, Real.exp_zero] at hconv
  nlinarith [hconv]

/-- C4 (amended): on a FRESH market (all-zero quantity vector, `n ≥ 2`
outcomes), for identical `dq > 0` and any `0 < b1 < b2`, the larger
liquidity parameter yields a strictly smaller buy cost.  (On general
vectors the claim fails; see the counterexample.) -/
theorem buy_cost_liquidity_monotone_fresh (n idx : ℕ) (dq b1 b2 : ℝ)
    (hn : 2 ≤ n) (hidx : idx < n) (hdq : 0 < dq) (hb1 : 0 < b1) (hb12 : b1 < b2) :
    ∃ c1 c2, buy_cost (List.replicate n 0) b1 idx dq = some c1 ∧
      buy_cost (List.replicate n 0) b2 idx dq = some c2 ∧ c2 < c1 := by
  have hb2 : 0 < b2 := hb1.trans hb12
  refine ⟨_, _, buy_cost_replicate_zero hb1 hdq hidx,
    buy_cost_replicate_zero hb2 hdq hidx, ?_⟩
  set c : ℝ := (n:ℝ) - 1 with hc_def
  have hc : 0 < c := by
    rw [hc_def]
    have : (2:ℝ) ≤ (n:ℝ) := by exact_mod_cast hn
    linarith
  have hn1 : (n:ℝ) = 1 + c := by rw [hc_def]; ring
  have hu2 : 0 < dq / b2 := div_pos hdq hb2
  have hu21 : dq / b2 < dq / b1 := div_lt_div_of_pos_left hdq hb1 hb12
  have hslope := log_exp_add_slope hc hu2 hu21
  have hratio : (dq / b2) / (dq / b1) = b1 / b2 := by
    field_simp
    ring
  rw [hratio] at hslope
  -- multiply the slope inequality through by b2 > 0
  have hmul := mul_lt_mul_of_pos_left hslope hb2
  have hcollapse : b2 * (b1 / b2 * (Real.log (Real.exp (dq / b1) + c) - Real.log (1 + c)))
      = b1 * (Real.log (Real.exp (dq / b1) + c) - Real.log (1 + c)) := by
    field_simp
  rw [hcollapse] at hmul
  rw [hn1]
  nlinarith [hmul]

/-- Witness for the amended C4 at `n = 2`, `idx = 0`, `dq = 1`, `b1 = 1`,
`b2 = 2`. -/
theorem buy_cost_liquidity_monotone_fresh_witness :
    2 ≤ 2 ∧ 0 < 2 ∧ (0:ℝ) < 1 ∧ (1:ℝ) < 2 ∧
      (∃ c1 c2, buy_cost (List.replicate 2 0) 1 0 1 = some c1 ∧
        buy_cost (List.replicate 2 0) 2 0 1 = some c2 ∧ c2 < c1) :=
  ⟨le_refl 2, two_pos, one_pos, one_lt_two,
    buy_cost_liquidity_monotone_fresh 2 0 1 1 2 (le_refl 2) two_pos one_pos one_pos one_lt_two⟩

/-! ### Economy / cycle manager (`app/models.py`, `app/tasks.py`) -/

/-- Game parameters (`app/config.py`): `STARTING_BALANCE`, `DAILY_TOPUP`,
`BALANCE_CAP`.  Environment-overridable floats, hence kept abstract. -/
structure Cfg where
  startBal : ℝ
  topup : ℝ
  cap : ℝ

/-- A `UserCycle` row (`app/models.py`, lines 33-42): per-user per-cycle
balance, bet counter and last-topup marker.  Calendar days are embedded
as integers. -/
structure UC where
  uid : ℕ
  balance : ℝ
  betCount : ℕ
  lastTopup : Option ℤ

/-- `ensure_daily_topup_for_usercycle` (`app/models.py`, lines 140-146). -/
noncomputable def ensure_daily_topup_for_usercycle (cfg : Cfg) (today : ℤ) (uc : UC) : UC :=
  if uc.lastTopup = some today then uc
  else { uc with balance := min cfg.cap (uc.balance + cfg.topup),
                 lastTopup := some today }

/-- The per-row update of the batch sweep `task_daily_topup`
(`app/tasks.py`, lines 22-26). -/
noncomputable def task_daily_topup_step (cfg : Cfg) (today : ℤ) (uc : UC) : UC :=
  if uc.lastTopup ≠ some today then
    { uc with balance := min cfg.cap (uc.balance + cfg.topup),
              lastTopup := some today }
  else uc

/-- The batch sweep over all rows of the current cycle, returning the
updated rows and the number of rows actually topped up
(`app/tasks.py`, lines 20-28). -/
noncomputable def task_daily_topup (cfg : Cfg) (today : ℤ) (rows : List UC) :
    List UC × ℕ :=
  (rows.map (task_daily_topup_step cfg today),
   rows.countP (fun uc => decide (uc.lastTopup ≠ some today)))

/-! ### C8: the daily top-up is idempotent per calendar day -/

theorem topup_step_marks_today (cfg : Cfg) (today : ℤ) (uc : UC) :
    (ensure_daily_topup_for_usercycle cfg today uc).lastTopup = some today := by
  unfold ensure_daily_topup_for_usercycle
  by_cases h : uc.lastTopup = some today
  · rw [if_pos h]; exact h
  · rw [if_neg h]

/-- C8: the first application on a day sets the balance to
`min(cap, balance + topup)` and records the day; re-applying on the same
day — from the on-demand trade path (`ensure_daily_topup_for_usercycle`)
or from the batch sweep (`task_daily_topup`) — changes nothing, and both
paths compute the same update. -/
theorem daily_topup_idempotent (cfg : Cfg) (today : ℤ) (uc : UC) (rows : List UC) :
    (uc.lastTopup ≠ some today →
      ensure_daily_topup_for_usercycle cfg today uc =
        { uc with balance := min cfg.cap (uc.balance + cfg.topup),
                  lastTopup := some today }) ∧
    ensure_daily_topup_for_usercycle cfg today
        (ensure_daily_topup_for_usercycle cfg today uc) =
      ensure_daily_topup_for_usercycle cfg today uc ∧
    task_daily_topup_step cfg today uc = ensure_daily_topup_for_usercycle cfg today uc ∧
    task_daily_topup_step cfg today (ensure_daily_topup_for_usercycle cfg today uc) =
      ensure_daily_topup_for_usercycle cfg today uc ∧
    task_daily_topup cfg today (task_daily_topup cfg today rows).1 =
      ((task_daily_topup cfg today rows).1, 0) := by
  refine ⟨?_, ?_, ?_, ?_, ?_⟩
  · intro h
    unfold ensure_daily_topup_for_usercycle
    rw [if_neg h]
  · unfold ensure_daily_topup_for_usercycle
    by_cases h : uc.lastTopup = some today
    · simp [if_pos h]
    · simp [if_neg h]
  · unfold ensure_daily_topup_for_usercycle task_daily_topup_step
    by_cases h : uc.lastTopup = some today
    · simp [h]
    · simp [h]
  · unfold task_daily_topup_step
    rw [if_neg (by rw [topup_step_marks_today]; simp)]
  · unfold task_daily_topup
    simp only [Prod.mk.injEq]
    constructor
    · rw [List.map_map]
      apply List.map_congr_left
      intro a _
      show task_daily_topup_step cfg today (task_daily_topup_step cfg today a) =
        task_daily_topup_step cfg today a
      unfold task_daily_topup_step
      by_cases h : a.lastTopup ≠ some today
      · rw [if_pos h]
        rw [if_neg (by simp)]
      · rw [if_neg h, if_neg h]
    · rw [List.countP_eq_zero]
      intro a ha
      obtain ⟨z, _, rfl⟩ := List.mem_map.1 ha
      unfold task_daily_topup_step
      by_cases h : z.lastTopup ≠ some today
      · rw [if_pos h]; simp
      · rw [if_neg h]
        push_neg at h
        simp [h]

/-- Witness for C8: ceiling 2000, increment 200, balance 1900 on a fresh
day tops up to exactly 2000 (capped), matching the spec scenario. -/
theorem daily_topup_idempotent_witness :
    ((⟨1, 1900, 0, none⟩ : UC).lastTopup ≠ some 0) ∧
      ensure_daily_topup_for_usercycle ⟨1000, 200, 2000⟩ 0 ⟨1, 1900, 0, none⟩ =
        ⟨1, min 2000 (1900 + 200), 0, some 0⟩ :=
  ⟨by simp,
    (daily_topup_idempotent ⟨1000, 200, 2000⟩ 0 ⟨1, 1900, 0, none⟩ []).1 (by simp)⟩

/-! ### C9: a balance above the ceiling is clamped by the next top-up -/

/-- C9: if the balance exceeds the ceiling (as can happen after a
resolution payout, which is credited without the cap), the next applied
daily top-up strictly decreases it, to exactly the ceiling. -/
theorem topup_clamps_over_ceiling (cfg : Cfg) (today : ℤ) (uc : UC)
    (hlast : uc.lastTopup ≠ some today) (hover : cfg.cap < uc.balance)
    (hinc : 0 ≤ cfg.topup) :
    (ensure_daily_topup_for_usercycle cfg today uc).balance = cfg.cap ∧
    (ensure_daily_topup_for_usercycle cfg today uc).balance < uc.balance := by
  unfold ensure_daily_topup_for_usercycle
  rw [if_neg hlast]
  have hmin : min cfg.cap (uc.balance + cfg.topup) = cfg.cap :=
    min_eq_left (by linarith)
  exact ⟨hmin, by rw [hmin]; exact hover⟩

/-- Witness for C9 at balance 2500 over ceiling 2000. -/
theorem topup_clamps_over_ceiling_witness :
    ((⟨1, 2500, 0, none⟩ : UC).lastTopup ≠ some 0) ∧ (2000:ℝ) < 2500 ∧ (0:ℝ) ≤ 200 ∧
      ((ensure_daily_topup_for_usercycle ⟨1000, 200, 2000⟩ 0 ⟨1, 2500, 0, none⟩).balance
          = 2000 ∧
        (ensure_daily_topup_for_usercycle ⟨1000, 200, 2000⟩ 0
            ⟨1, 2500, 0, none⟩).balance < (⟨1, 2500, 0, none⟩ : UC).balance) :=
  ⟨by simp, by norm_num, by norm_num,
    topup_clamps_over_ceiling ⟨1000, 200, 2000⟩ 0 ⟨1, 2500, 0, none⟩
      (by simp) (by norm_num) (by norm_num)⟩

/-! ### Market & ledger data model (`app/models.py`) -/

/-- Market lifecycle status (the `status` text column): `opn` stands for
the source's `"open"` (a Lean keyword), then `"resolved"`, `"cancelled"`. -/
inductive MStatus
  | opn
  | resolved
  | cancelled
deriving DecidableEq

/-- An `Outcome` row: id, symbol, outstanding quantity. -/
structure Outc where
  oid : ℕ
  symbol : String
  q : ℝ

/-- The parts of a `Market` row the commands read: status, the
`when_cancelled is not None` flag, the `when_closes < now()` comparison
(a boolean input, as the embedding has no clock), liquidity `b`, creator
id, and the ordered outcome list. -/
structure MarketSt where
  status : MStatus
  cancelled : Bool
  pastClose : Bool
  b : ℝ
  creator : ℕ
  outcomes : List Outc

/-- `market_is_closed` (`app/models.py`, lines 162-170). -/
def market_is_closed (m : MarketSt) : Bool :=
  if m.status ≠ MStatus.opn then true
  else if m.cancelled then true
  else if m.pastClose then true
  else false

/-- An immutable `Trade` audit row (user, outcome, side, share delta,
monetary amount). -/
structure TradeRec where
  uid : ℕ
  oid : ℕ
  side : String
  shares : ℝ
  amount : ℝ

/-- One constructor per distinct `PredictionsError` raise site of the
commands under study. -/
inductive Err
  | nonPositiveSpend
  | marketClosed
  | insufficientBalance
  | misconfigured
  | unknownOutcome
  | invalidParams
  | stateInvalid
  | illiquid
  | calcFailed
  | insufficientBalanceAtCost
  | nonPositiveShares
  | noOutcomes
  | insufficientShares
  | insufficientLiquidity
  | invalidRefund
  | alreadyResolved
  | wasCancelled
  | notCreator
  | notAdmin
  | alreadyClosed
deriving DecidableEq

/-- The case-insensitive outcome lookup of `buy`/`sell`
(`app/commands.py`, lines 190-194 and 375-379): first index whose
upper-cased symbol matches the upper-cased query. -/
def findCI : List Outc → String → Option ℕ
  | [], _ => none
  | o :: os, s =>
    if o.symbol.toUpper = s.toUpper then some 0
    else (findCI os s).map (· + 1)

/-- The exact (case-sensitive) outcome lookup of `resolve`
(`app/commands.py`, lines 478-480): SQL equality on the symbol column. -/
def findExact : List Outc → String → Option Outc
  | [], _ => none
  | o :: os, s => if o.symbol = s then some o else findExact os s

theorem findCI_lt_length :
    ∀ (outs : List Outc) (s : String) (i : ℕ), findCI outs s = some i → i < outs.length
  | [], _, _, h => by simp [findCI] at h
  | o :: os, s, i, h => by
    unfold findCI at h
    split at h
    · injection h with h'
      simp only [List.length_cons]
      omega
    · rcases hrec : findCI os s with _ | j
      · rw [hrec] at h; simp at h
      · rw [hrec] at h
        simp only [Option.map_some'] at h
        injection h with h'
        have := findCI_lt_length os s j hrec
        simp only [List.length_cons]
        omega

theorem findCI_eq_none_iff :
    ∀ (outs : List Outc) (s : String),
      (findCI outs s = none ↔ ∀ o ∈ outs, o.symbol.toUpper ≠ s.toUpper)
  | [], s => by simp [findCI]
  | o :: os, s => by
    unfold findCI
    by_cases hhead : o.symbol.toUpper = s.toUpper
    · rw [if_pos hhead]
      constructor
      · intro h; exact absurd h (by simp)
      · intro h; exact absurd hhead (h o (by simp))
    · rw [if_neg hhead]
      constructor
      · intro h
        intro x hx
        rcases List.mem_cons.mp hx with rfl | hx'
        · exact hhead
        · rcases hrec : findCI os s with _ | j
          · exact (findCI_eq_none_iff os s).mp hrec x hx'
          · rw [hrec] at h; exact absurd h (by simp)
      · intro h
        have hnone : findCI os s = none :=
          (findCI_eq_none_iff os s).mpr (fun x hx => h x (by simp [hx]))
        rw [hnone]
        rfl

theorem findExact_eq_none_iff :
    ∀ (outs : List Outc) (s : String),
      (findExact outs s = none ↔ ∀ o ∈ outs, o.symbol ≠ s)
  | [], s => by simp [findExact]
  | o :: os, s => by
    unfold findExact
    split
    · simp_all
    · constructor
      · intro h
        intro x hx
        rcases List.mem_cons.mp hx with rfl | hx'
        · assumption
        · exact (findExact_eq_none_iff os s).mp h x hx'
      · intro h
        exact (findExact_eq_none_iff os s).mpr (fun x hx => h x (by simp [hx]))

/-! ### The buy-side root finding (`app/commands.py`, lines 221-291) -/

/-- Running state of the seed/expand/bisect search: the bracket and the
best (largest cost-feasible) trade found so far. -/
structure SearchSt where
  low : ℝ
  high : ℝ
  bestDq : ℝ
  bestCost : ℝ

/-- The `seed_values` list tried by `buy` (line 230). -/
noncomputable def seedValues : List ℝ :=
  [1e-12, 1e-9, 1e-6, 1e-4, 1e-2, 1e-1, 1.0]

/-- The seed loop (lines 236-251): first seed with a finite positive cost
seeds the bracket; `none` when no seed works (`Market invalid or illiquid`). -/
noncomputable def seedLoop (qs : List ℝ) (b : ℝ) (idx : ℕ) (spend : ℝ) :
    List ℝ → Option SearchSt
  | [] => none
  | seed :: rest =>
    match buy_cost qs b idx seed with
    | some c =>
        if 0 < c then
          if spend < c then some ⟨0, seed, 0, 0⟩
          else some ⟨seed, seed * 2, seed, c⟩
        else seedLoop qs b idx spend rest
    | none => seedLoop qs b idx spend rest

/-- The geometric expansion loop (lines 253-271), fuelled: the source's
`while True` exits via the `cost > spend`, `high > cap = 1e12` or
infinite-cost branches; the fuel bound only truncates runs the source
cannot reach (high doubles every step).  `none` covers both the raise
on a bad halved bracket and fuel exhaustion. -/
noncomputable def expandLoop (qs : List ℝ) (b : ℝ) (idx : ℕ) (spend : ℝ) :
    ℕ → SearchSt → Option SearchSt
  | 0, _ => none
  | fuel + 1, st =>
    match buy_cost qs b idx st.high with
    | none =>
        if st.high / 2 ≤ st.low ∨ st.high / 2 < 1e-18 then none
        else some { st with high := st.high / 2 }
    | some c =>
        if spend < c then some st
        else if (1e12 : ℝ) < st.high then some st
        else expandLoop qs b idx spend fuel ⟨st.high, st.high * 2, st.high, c⟩

/-- The 60-iteration bisection (lines 274-291). -/
noncomputable def bisectLoop (qs : List ℝ) (b : ℝ) (idx : ℕ) (spend : ℝ) :
    ℕ → SearchSt → SearchSt
  | 0, st => st
  | fuel + 1, st =>
    match buy_cost qs b idx ((st.low + st.high) / 2) with
    | none => bisectLoop qs b idx spend fuel { st with high := (st.low + st.high) / 2 }
    | some c =>
        if spend < c then
          bisectLoop qs b idx spend fuel { st with high := (st.low + st.high) / 2 }
        else
          bisectLoop qs b idx spend fuel
            ⟨(st.low + st.high) / 2, st.high, (st.low + st.high) / 2, c⟩

/-- The complete dq-search of `buy`: seeds, expansion, bisection; returns
the located `(dq, cost)`. -/
noncomputable def searchTrade (qs : List ℝ) (b : ℝ) (idx : ℕ) (spend : ℝ) :
    Option (ℝ × ℝ) :=
  match seedLoop qs b idx spend seedValues with
  | none => none
  | some st0 =>
    match expandLoop qs b idx spend 200 st0 with
    | none => none
    | some st1 =>
      some ((bisectLoop qs b idx spend 60 st1).bestDq,
            (bisectLoop qs b idx spend 60 st1).bestCost)

theorem buy_cost_some_nonneg {qs : List ℝ} {b dq : ℝ} {idx : ℕ} {c : ℝ}
    (h : buy_cost qs b idx dq = some c) : 0 ≤ c := by
  unfold buy_cost at h
  split at h
  · exact absurd h (by simp)
  · split at h
    · split at h
      · exact absurd h (by simp)
      · rename_i hneg
        injection h with h'
        subst h'
        linarith [not_lt.mp hneg]
    · exact absurd h (by simp)

/-- Every `bestCost` the seed loop commits is within the budget. -/
theorem seedLoop_inv (qs : List ℝ) (b : ℝ) (idx : ℕ) (spend : ℝ)
    (hspend : 0 < spend) :
    ∀ (seeds : List ℝ) (st : SearchSt), seedLoop qs b idx spend seeds = some st →
      0 ≤ st.bestCost ∧ st.bestCost ≤ spend := by
  intro seeds
  induction seeds with
  | nil => intro st h; exact absurd h (by simp [seedLoop])
  | cons seed rest ih =>
    intro st h
    unfold seedLoop at h
    split at h
    · rename_i c heq
      split at h
      · rename_i hc
        split at h
        · injection h with h'
          subst h'
          exact ⟨le_refl 0, hspend.le⟩
        · rename_i hs
          injection h with h'
          subst h'
          exact ⟨hc.le, not_lt.mp hs⟩
      · exact ih st h
    · exact ih st h

/-- The expansion loop preserves the budget invariant on `bestCost`. -/
theorem expandLoop_inv (qs : List ℝ) (b : ℝ) (idx : ℕ) (spend : ℝ) :
    ∀ (fuel : ℕ) (st st' : SearchSt),
      0 ≤ st.bestCost → st.bestCost ≤ spend →
      expandLoop qs b idx spend fuel st = some st' →
      0 ≤ st'.bestCost ∧ st'.bestCost ≤ spend := by
  intro fuel
  induction fuel with
  | zero => intro st st' h0 h1 h; exact absurd h (by simp [expandLoop])
  | succ n ih =>
    intro st st' h0 h1 h
    unfold expandLoop at h
    split at h
    · split at h
      · exact absurd h (by simp)
      · injection h with h'
        subst h'
        exact ⟨h0, h1⟩
    · rename_i c heq
      split at h
      · injection h with h'
        subst h'
        exact ⟨h0, h1⟩
      · rename_i hs
        split at h
        · injection h with h'
          subst h'
          exact ⟨h0, h1⟩
        · exact ih _ st' (buy_cost_some_nonneg heq) (not_lt.mp hs) h

/-- The bisection preserves the budget invariant on `bestCost`. -/
theorem bisectLoop_inv (qs : List ℝ) (b : ℝ) (idx : ℕ) (spend : ℝ) :
    ∀ (fuel : ℕ) (st : SearchSt),
      0 ≤ st.bestCost → st.bestCost ≤ spend →
      0 ≤ (bisectLoop qs b idx spend fuel st).bestCost ∧
        (bisectLoop qs b idx spend fuel st).bestCost ≤ spend := by
  intro fuel
  induction fuel with
  | zero => intro st h0 h1; exact ⟨h0, h1⟩
  | succ n ih =>
    intro st h0 h1
    unfold bisectLoop
    split
    · exact ih _ h0 h1
    · rename_i c heq
      split
      · exact ih _ h0 h1
      · rename_i hs
        exact ih _ (buy_cost_some_nonneg heq) (not_lt.mp hs)

/-- The located trade always costs at most the requested budget. -/
theorem searchTrade_le_spend (qs : List ℝ) (b : ℝ) (idx : ℕ) (spend : ℝ)
    (hspend : 0 < spend) (dq cost : ℝ)
    (h : searchTrade qs b idx spend = some (dq, cost)) :
    0 ≤ cost ∧ cost ≤ spend := by
  unfold searchTrade at h
  split at h
  · exact absurd h (by simp)
  · rename_i st0 h0
    split at h
    · exact absurd h (by simp)
    · rename_i st1 h1
      obtain ⟨a0, b0⟩ := seedLoop_inv qs b idx spend hspend seedValues st0 h0
      obtain ⟨a1, b1⟩ := expandLoop_inv qs b idx spend 200 st0 st1 a0 b0 h1
      obtain ⟨a2, b2⟩ := bisectLoop_inv qs b idx spend 60 st1 a1 b1
      injection h with h'
      rw [Prod.mk.injEq] at h'
      obtain ⟨_, hcost⟩ := h'
      subst hcost
      exact ⟨a2, b2⟩

/-! ### The `buy` command (`app/commands.py`, lines 158-346) -/

/-- `target_outcome.q += dq`: bump the quantity of the outcome at a given
index, leaving the rest of the row untouched. -/
def addQ : List Outc → ℕ → ℝ → List Outc
  | [], _, _ => []
  | o :: os, 0, dq => { o with q := o.q + dq } :: os
  | o :: os, n + 1, dq => o :: addQ os n dq

theorem addQ_q_self (d : Outc) :
    ∀ (l : List Outc) (i : ℕ) (dq : ℝ), i < l.length →
      ((addQ l i dq).getD i d).q = (l.getD i d).q + dq
  | [], i, _, h => absurd h (by simp)
  | o :: os, 0, dq, _ => rfl
  | o :: os, i + 1, dq, h => by
    simpa [addQ] using addQ_q_self d os i dq (by simpa using h)

theorem addQ_getD_ne (d : Outc) :
    ∀ (l : List Outc) (i j : ℕ) (dq : ℝ), j ≠ i →
      (addQ l i dq).getD j d = l.getD j d
  | [], _, _, _, _ => by simp [addQ]
  | o :: os, 0, 0, dq, h => absurd rfl h
  | o :: os, 0, j + 1, dq, _ => by simp [addQ]
  | o :: os, i + 1, 0, dq, _ => rfl
  | o :: os, i + 1, j + 1, dq, h => by
    simpa [addQ] using addQ_getD_ne d os i j dq (fun hc => h (by omega))

/-- Success payload of `buy`: the located index/`dq`/cost and the
committed state delta (the message on line 346 reports `dq`, the cost,
the new price and the new balance). -/
structure BuyOk where
  idx : ℕ
  dq : ℝ
  cost : ℝ
  outcomes : List Outc
  balance : ℝ
  betCount : ℕ
  shares : ℝ
  trades : List TradeRec

/-- The `buy` command on the state it reads and writes.  The account `uc`
is passed as stored; `buy` first applies the lazy daily top-up
(line 179), then checks the balance (line 181), locates the outcome
case-insensitively (lines 190-197), runs the seed/expand/bisect search
(lines 221-291), validates the result (lines 296-301), and commits the
delta (lines 303-337).  `shares0` is the existing position's share count
(`none` when no `Position` row exists; one is then created at 0). -/
noncomputable def buy (cfg : Cfg) (today : ℤ) (m : MarketSt) (uc : UC)
    (shares0 : Option ℝ) (symbol : String) (spend : ℝ)
    (trades : List TradeRec) : Except Err BuyOk :=
  if spend ≤ 0 then .error .nonPositiveSpend
  else if market_is_closed m then .error .marketClosed
  else if (ensure_daily_topup_for_usercycle cfg today uc).balance < spend then
    .error .insufficientBalance
  else if m.outcomes.length < 2 then .error .misconfigured
  else
    match findCI m.outcomes symbol with
    | none => .error .unknownOutcome
    | some i =>
      if m.b ≤ 0 then .error .invalidParams
      else
        match lmsr_cost (m.outcomes.map Outc.q) m.b with
        | none => .error .stateInvalid
        | some _ =>
          match searchTrade (m.outcomes.map Outc.q) m.b i spend with
          | none => .error .illiquid
          | some (dq, cost) =>
            if dq < 1e-8 ∨ cost < 0 ∨ spend * 1.01 < cost then .error .calcFailed
            else if (ensure_daily_topup_for_usercycle cfg today uc).balance + 1e-6 < cost
            then .error .insufficientBalanceAtCost
            else
              .ok { idx := i, dq := dq, cost := cost,
                    outcomes := addQ m.outcomes i dq,
                    balance := (ensure_daily_topup_for_usercycle cfg today uc).balance - cost,
                    betCount := uc.betCount + 1,
                    shares := shares0.getD 0 + dq,
                    trades := trades ++ [⟨uc.uid, (m.outcomes.getD i ⟨0, "", 0⟩).oid,
                                          "buy", dq, cost⟩] }

/-- C2: whenever `buy` succeeds, the target outcome quantity increased by
exactly the located `dq` (other outcomes untouched), the position's
shares increased by exactly `dq` (from 0 for a fresh position), the
balance decreased by exactly the realized cost, which is non-negative and
never exceeds the requested budget, the bet counter incremented by one,
and one trade record was appended. -/
theorem buy_success_effects (cfg : Cfg) (today : ℤ) (m : MarketSt) (uc : UC)
    (shares0 : Option ℝ) (symbol : String) (spend : ℝ) (trades : List TradeRec) :
    match buy cfg today m uc shares0 symbol spend trades with
    | .ok r =>
        0 ≤ r.cost ∧ r.cost ≤ spend ∧
        r.idx < m.outcomes.length ∧
        (r.outcomes.getD r.idx ⟨0, "", 0⟩).q
            = (m.outcomes.getD r.idx ⟨0, "", 0⟩).q + r.dq ∧
        (∀ j, j ≠ r.idx → r.outcomes.getD j ⟨0, "", 0⟩ = m.outcomes.getD j ⟨0, "", 0⟩) ∧
        r.shares = shares0.getD 0 + r.dq ∧
        r.balance = (ensure_daily_topup_for_usercycle cfg today uc).balance - r.cost ∧
        r.betCount = uc.betCount + 1 ∧
        r.trades = trades ++ [⟨uc.uid, (m.outcomes.getD r.idx ⟨0, "", 0⟩).oid,
                              "buy", r.dq, r.cost⟩]
    | .error _ => True := by
  unfold buy
  split
  · rename_i r heq
    split at heq
    · exact absurd heq (by simp)
    split at heq
    · exact absurd heq (by simp)
    split at heq
    · exact absurd heq (by simp)
    split at heq
    · exact absurd heq (by simp)
    split at heq
    · exact absurd heq (by simp)
    rename_i i hfind
    split at heq
    · exact absurd heq (by simp)
    split at heq
    · exact absurd heq (by simp)
    split at heq
    · exact absurd heq (by simp)
    rename_i dq cost hsearch
    split at heq
    · exact absurd heq (by simp)
    split at heq
    · exact absurd heq (by simp)
    injection heq with heq'
    subst heq'
    have hspend' : 0 < spend := lt_of_not_le ‹¬ spend ≤ 0›
    obtain ⟨hc0, hcs⟩ := searchTrade_le_spend (m.outcomes.map Outc.q) m.b i spend
      hspend' dq cost hsearch
    have hi : i < m.outcomes.length := findCI_lt_length m.outcomes symbol i hfind
    refine ⟨hc0, hcs, hi, ?_, ?_, rfl, rfl, rfl, rfl⟩
    · exact addQ_q_self _ m.outcomes i dq hi
    · intro j hj
      exact addQ_getD_ne _ m.outcomes i j dq hj
  · trivial

/-! ### The `sell` command (`app/commands.py`, lines 349-427) -/

/-- `target_outcome.q -= dq`. -/
def subQ : List Outc → ℕ → ℝ → List Outc
  | [], _, _ => []
  | o :: os, 0, dq => { o with q := o.q - dq } :: os
  | o :: os, n + 1, dq => o :: subQ os n dq

/-- Success payload of `sell`. -/
structure SellOk where
  idx : ℕ
  refund : ℝ
  outcomes : List Outc
  balance : ℝ
  betCount : ℕ
  shares : ℝ
  trades : List TradeRec

/-- The `sell` command: validation order as in the source — share count
positive, market open, top-up, outcomes non-empty, case-insensitive
lookup, position check (`not pos or pos.shares < shares_f`), liquidity
check (`target_outcome.q < shares_f`), then the refund and the commit.
The `none` branch of `sell_refund` (a NaN in the source) is mapped to the
`invalid refund` error; it is unreachable for `b > 0`. -/
noncomputable def sell (cfg : Cfg) (today : ℤ) (m : MarketSt) (uc : UC)
    (shares0 : Option ℝ) (symbol : String) (sharesReq : ℝ)
    (trades : List TradeRec) : Except Err SellOk :=
  if sharesReq ≤ 0 then .error .nonPositiveShares
  else if market_is_closed m then .error .marketClosed
  else if m.outcomes.isEmpty then .error .noOutcomes
  else
    match findCI m.outcomes symbol with
    | none => .error .unknownOutcome
    | some i =>
      if shares0.isNone ∨ shares0.getD 0 < sharesReq then .error .insufficientShares
      else if (m.outcomes.getD i ⟨0, "", 0⟩).q < sharesReq then
        .error .insufficientLiquidity
      else
        match sell_refund (m.outcomes.map Outc.q) m.b i sharesReq with
        | none => .error .invalidRefund
        | some refund =>
          if refund < 0 then .error .invalidRefund
          else
            .ok { idx := i, refund := refund,
                  outcomes := subQ m.outcomes i sharesReq,
                  balance := (ensure_daily_topup_for_usercycle cfg today uc).balance + refund,
                  betCount := uc.betCount + 1,
                  shares := shares0.getD 0 - sharesReq,
                  trades := trades ++ [⟨uc.uid, (m.outcomes.getD i ⟨0, "", 0⟩).oid,
                                        "sell", sharesReq, refund⟩] }

/-! ### The `resolve` command (`app/commands.py`, lines 462-504) -/

/-- A `Position` row. -/
structure Pos where
  uid : ℕ
  oid : ℕ
  shares : ℝ

/-- The per-winner credit: lazy top-up, then `uc.balance += p.shares`
(lines 497-498) — note the payout itself is NOT capped. -/
noncomputable def payoutUC (cfg : Cfg) (today : ℤ) (sh : ℝ) (uc : UC) : UC :=
  { ensure_daily_topup_for_usercycle cfg today uc with
    balance := (ensure_daily_topup_for_usercycle cfg today uc).balance + sh }

/-- Update the first `UserCycle` row with the position's user id
(the `.first()` lookup of lines 491-493); `none` when no row exists. -/
noncomputable def creditFirst (cfg : Cfg) (today : ℤ) (p : Pos) :
    List UC → Option (List UC)
  | [] => none
  | uc :: rest =>
    if uc.uid = p.uid then some (payoutUC cfg today p.shares uc :: rest)
    else (creditFirst cfg today p rest).map (uc :: ·)

/-- Credit one winning position: update the holder's row, or lazily
create it at the starting balance (`get_or_create_usercycle`,
lines 494-496) and then credit it. -/
noncomputable def creditOne (cfg : Cfg) (today : ℤ) (ucs : List UC) (p : Pos) : List UC :=
  match creditFirst cfg today p ucs with
  | some l => l
  | none => ucs ++ [payoutUC cfg today p.shares ⟨p.uid, cfg.startBal, 0, none⟩]

/-- Result of `resolve`: the resolved market, the winning outcome id, the
updated account rows, and the (untouched) position rows. -/
structure ResolveRes where
  market : MarketSt
  resolvedOid : ℕ
  ucs : List UC
  positions : List Pos

/-- The `resolve` command: already-resolved / cancelled / creator guards,
exact (case-sensitive) winning-outcome lookup, then `1 unit per share`
credits to every holder of the winning outcome, and the transition to
`resolved`.  Losing positions are not touched. -/
noncomputable def resolve (cfg : Cfg) (today : ℤ) (m : MarketSt) (caller : ℕ)
    (winning : String) (positions : List Pos) (ucs : List UC) :
    Except Err ResolveRes :=
  if m.status = MStatus.resolved then .error .alreadyResolved
  else if m.cancelled then .error .wasCancelled
  else if m.creator ≠ caller then .error .notCreator
  else
    match findExact m.outcomes winning with
    | none => .error .unknownOutcome
    | some out =>
      .ok { market := { m with status := MStatus.resolved },
            resolvedOid := out.oid,
            ucs := (positions.filter (fun p => decide (p.oid = out.oid))).foldl
                     (creditOne cfg today) ucs,
            positions := positions }

/-! ### The `close_month` command (`app/commands.py`, lines 526-578) -/

/-- The slice of a `UserCycle` row `close_month` reads. -/
structure Row where
  uid : ℕ
  bets : ℕ
  bal : ℝ

/-- Python `sorted` on the bet counts (ascending). -/
def sortedBets (l : List ℕ) : List ℕ :=
  l.mergeSort (fun a b => decide (a ≤ b))

/-- `int(median(sorted(bet_counts)))` (line 546): `statistics.median`
returns the middle element for odd length and the average of the two
middle elements for even length; `int()` truncates, which on the
non-negative average is the floor, i.e. Nat division by 2. -/
def intMedian (l : List ℕ) : ℕ :=
  if l.length % 2 = 1 then (sortedBets l).getD (l.length / 2) 0
  else ((sortedBets l).getD (l.length / 2 - 1) 0 + (sortedBets l).getD (l.length / 2) 0) / 2

/-- The exact (rational) median of the same sorted list, for comparison
with the spec's wording. -/
def medianQ (l : List ℕ) : ℚ :=
  (((sortedBets l).getD ((l.length - 1) / 2) 0 : ℚ)
    + ((sortedBets l).getD (l.length / 2) 0 : ℚ)) / 2

/-- Python `max(rows, key=balance, default=None)`: first row of maximal
balance, `none` on an empty list. -/
noncomputable def pyMax : List Row → Option Row
  | [] => none
  | r :: rest => some (rest.foldl (fun w x => if w.bal < x.bal then x else w) r)

/-- The `close_month` command: admin guard, already-closed guard, the
no-participants early return, then median / strict-majority eligibility /
highest-balance winner. -/
noncomputable def close_month (adminOk : Bool) (alreadyClosed : Bool) (rows : List Row) :
    Except Err (ℕ × Option Row) :=
  if ¬ adminOk then .error .notAdmin
  else if alreadyClosed then .error .alreadyClosed
  else if rows.isEmpty then .ok (0, none)
  else
    .ok (intMedian (rows.map Row.bets),
         pyMax (rows.filter (fun r => decide (intMedian (rows.map Row.bets) < r.bets))))

/-! ### C6: period close — median, eligibility, winner -/

/-- Uniform two-index form of the truncated median. -/
theorem intMedian_eq (l : List ℕ) (h : l ≠ []) :
    intMedian l = ((sortedBets l).getD ((l.length - 1) / 2) 0
      + (sortedBets l).getD (l.length / 2) 0) / 2 := by
  unfold intMedian
  have hlen : 1 ≤ l.length := List.length_pos.mpr h
  by_cases hp : l.length % 2 = 1
  · rw [if_pos hp]
    have hidx : (l.length - 1) / 2 = l.length / 2 := by omega
    rw [hidx]
    omega
  · rw [if_neg hp]
    have hidx : (l.length - 1) / 2 = l.length / 2 - 1 := by omega
    rw [hidx]

/-- For integer bet counts, being strictly above the truncated
`int(median(...))` is the same as being strictly above the exact
(rational) median. -/
theorem intMedian_lt_iff (l : List ℕ) (c : ℕ) (h : l ≠ []) :
    intMedian l < c ↔ medianQ l < (c : ℚ) := by
  rw [intMedian_eq l h]
  unfold medianQ
  rw [div_lt_iff₀ (by norm_num : (0:ℚ) < 2)]
  constructor
  · intro hlt
    have h2 : (sortedBets l).getD ((l.length - 1) / 2) 0
        + (sortedBets l).getD (l.length / 2) 0 < c * 2 := by omega
    exact_mod_cast h2
  · intro hlt
    have h2 : (sortedBets l).getD ((l.length - 1) / 2) 0
        + (sortedBets l).getD (l.length / 2) 0 < c * 2 := by exact_mod_cast hlt
    omega

/-- The running fold of `pyMax` stays in the list (or at the seed) and
dominates the seed and every element seen. -/
theorem pyMax_fold (rest : List Row) : ∀ (r : Row),
    (rest.foldl (fun w x => if w.bal < x.bal then x else w) r = r ∨
      rest.foldl (fun w x => if w.bal < x.bal then x else w) r ∈ rest) ∧
    r.bal ≤ (rest.foldl (fun w x => if w.bal < x.bal then x else w) r).bal ∧
    ∀ x ∈ rest, x.bal ≤ (rest.foldl (fun w x => if w.bal < x.bal then x else w) r).bal := by
  induction rest with
  | nil => intro r; simp
  | cons y ys ih =>
    intro r
    simp only [List.foldl_cons]
    by_cases h : r.bal < y.bal
    · rw [if_pos h]
      obtain ⟨hmem, hle, hall⟩ := ih y
      refine ⟨?_, le_trans h.le hle, ?_⟩
      · rcases hmem with h' | h'
        · rw [h']; right; exact List.mem_cons_self y ys
        · right; exact List.mem_cons_of_mem y h'
      · intro x hx
        rcases List.mem_cons.mp hx with rfl | hx'
        · exact hle
        · exact hall x hx'
    · rw [if_neg h]
      obtain ⟨hmem, hle, hall⟩ := ih r
      refine ⟨?_, hle, ?_⟩
      · rcases hmem with h' | h'
        · left; exact h'
        · right; exact List.mem_cons_of_mem y h'
      · intro x hx
        rcases List.mem_cons.mp hx with rfl | hx'
        · exact le_trans (not_lt.mp h) hle
        · exact hall x hx'

theorem pyMax_eq_none_iff (l : List Row) : pyMax l = none ↔ l = [] := by
  cases l with
  | nil => simp [pyMax]
  | cons r rest => simp [pyMax]

theorem pyMax_spec {l : List Row} {w : Row} (h : pyMax l = some w) :
    w ∈ l ∧ ∀ r ∈ l, r.bal ≤ w.bal := by
  cases l with
  | nil => exact absurd h (by simp [pyMax])
  | cons r rest =>
    unfold pyMax at h
    injection h with h'
    obtain ⟨hmem, hle, hall⟩ := pyMax_fold rest r
    subst h'
    constructor
    · rcases hmem with h' | h'
      · rw [h']; exact List.mem_cons_self r rest
      · exact List.mem_cons_of_mem r h'
    · intro x hx
      rcases List.mem_cons.mp hx with rfl | hx'
      · exact hle
      · exact hall x hx'

/-- C6: closing a (non-empty, not yet closed) period computes the median
bet count; an account is eligible iff its bet count strictly exceeds that
median (equivalently the exact rational median, since counts are
integers); the winner is a highest-balance eligible account, and there is
no winner exactly when no account is eligible. -/
theorem close_month_median_winner (rows : List Row) (hrows : rows ≠ []) :
    ∃ med w, close_month true false rows = .ok (med, w) ∧
      med = intMedian (rows.map Row.bets) ∧
      (∀ r ∈ rows, (med < r.bets ↔ medianQ (rows.map Row.bets) < (r.bets : ℚ))) ∧
      (w = none ↔ rows.filter (fun r => decide (med < r.bets)) = []) ∧
      (∀ x, w = some x → x ∈ rows ∧ med < x.bets ∧
        ∀ r ∈ rows, med < r.bets → r.bal ≤ x.bal) := by
  have hmapne : rows.map Row.bets ≠ [] := by
    intro h
    exact hrows (List.map_eq_nil_iff.mp h)
  have hempty : rows.isEmpty = false := by
    cases rows with
    | nil => exact absurd rfl hrows
    | cons a l => rfl
  refine ⟨intMedian (rows.map Row.bets),
    pyMax (rows.filter
      (fun r => decide (intMedian (rows.map Row.bets) < r.bets))), ?_, rfl, ?_, ?_, ?_⟩
  · unfold close_month
    rw [if_neg (by simp), if_neg (by simp), if_neg (by simp [hempty])]
  · intro r _
    exact intMedian_lt_iff (rows.map Row.bets) r.bets hmapne
  · rw [pyMax_eq_none_iff]
  · intro x hx
    obtain ⟨hmem, hall⟩ := pyMax_spec hx
    rw [List.mem_filter] at hmem
    obtain ⟨hmem', helig⟩ := hmem
    refine ⟨hmem', by simpa using helig, ?_⟩
    intro r hr hrel
    exact hall r (List.mem_filter.mpr ⟨hr, by simpa using hrel⟩)

/-- Witness for C6 on the spec's bet-count set `{1,1,5,5,9}`. -/
theorem close_month_median_winner_witness :
    ([⟨1, 1, 10⟩, ⟨2, 1, 20⟩, ⟨3, 5, 30⟩, ⟨4, 5, 40⟩, ⟨5, 9, 50⟩] : List Row) ≠ [] ∧
      ∃ med w, close_month true false
          [⟨1, 1, 10⟩, ⟨2, 1, 20⟩, ⟨3, 5, 30⟩, ⟨4, 5, 40⟩, ⟨5, 9, 50⟩] = .ok (med, w) ∧
        med = intMedian
          ([⟨1, 1, 10⟩, ⟨2, 1, 20⟩, ⟨3, 5, 30⟩, ⟨4, 5, 40⟩,
            (⟨5, 9, 50⟩ : Row)].map Row.bets) ∧
        (∀ r ∈ ([⟨1, 1, 10⟩, ⟨2, 1, 20⟩, ⟨3, 5, 30⟩, ⟨4, 5, 40⟩,
            (⟨5, 9, 50⟩ : Row)] : List Row),
          (med < r.bets ↔ medianQ
            ([⟨1, 1, 10⟩, ⟨2, 1, 20⟩, ⟨3, 5, 30⟩, ⟨4, 5, 40⟩,
              (⟨5, 9, 50⟩ : Row)].map Row.bets) < (r.bets : ℚ))) ∧
        (w = none ↔ ([⟨1, 1, 10⟩, ⟨2, 1, 20⟩, ⟨3, 5, 30⟩, ⟨4, 5, 40⟩,
            (⟨5, 9, 50⟩ : Row)] : List Row).filter
              (fun r => decide (med < r.bets)) = []) ∧
        (∀ x, w = some x → x ∈ ([⟨1, 1, 10⟩, ⟨2, 1, 20⟩, ⟨3, 5, 30⟩, ⟨4, 5, 40⟩,
            (⟨5, 9, 50⟩ : Row)] : List Row) ∧ med < x.bets ∧
          ∀ r ∈ ([⟨1, 1, 10⟩, ⟨2, 1, 20⟩, ⟨3, 5, 30⟩, ⟨4, 5, 40⟩,
              (⟨5, 9, 50⟩ : Row)] : List Row), med < r.bets → r.bal ≤ x.bal) :=
  ⟨by simp,
    close_month_median_winner
      [⟨1, 1, 10⟩, ⟨2, 1, 20⟩, ⟨3, 5, 30⟩, ⟨4, 5, 40⟩, ⟨5, 9, 50⟩] (by simp)⟩

/-! ### C7: resolution payouts -/

/-- The `.first()` lookup of a user's cycle row. -/
noncomputable def lookupUC (ucs : List UC) (u : ℕ) : Option UC :=
  ucs.find? (fun uc => decide (uc.uid = u))

theorem ensure_topup_uid (cfg : Cfg) (today : ℤ) (uc : UC) :
    (ensure_daily_topup_for_usercycle cfg today uc).uid = uc.uid := by
  unfold ensure_daily_topup_for_usercycle
  split <;> rfl

theorem payoutUC_uid (cfg : Cfg) (today : ℤ) (sh : ℝ) (uc : UC) :
    (payoutUC cfg today sh uc).uid = uc.uid := by
  unfold payoutUC
  rw [ensure_topup_uid]

/-- A row already topped up today is credited exactly its share count. -/
theorem payoutUC_topped (cfg : Cfg) (today : ℤ) (sh : ℝ) (uc : UC)
    (h : uc.lastTopup = some today) :
    payoutUC cfg today sh uc = { uc with balance := uc.balance + sh } := by
  unfold payoutUC ensure_daily_topup_for_usercycle
  rw [if_pos h]

theorem creditFirst_lookup :
    ∀ (ucs : List UC) (cfg : Cfg) (today : ℤ) (p : Pos) (l : List UC),
      creditFirst cfg today p ucs = some l →
      (∀ u, u ≠ p.uid → lookupUC l u = lookupUC ucs u) ∧
      (∀ uc₀, lookupUC ucs p.uid = some uc₀ →
        lookupUC l p.uid = some (payoutUC cfg today p.shares uc₀))
  | [], _, _, _, _, h => absurd h (by simp [creditFirst])
  | uc :: rest, cfg, today, p, l, h => by
    unfold creditFirst at h
    by_cases hid : uc.uid = p.uid
    · rw [if_pos hid] at h
      injection h with h'
      subst h'
      constructor
      · intro u hu
        unfold lookupUC
        simp only [List.find?_cons]
        rw [payoutUC_uid]
        by_cases hcu : uc.uid = u
        · exact absurd (hcu ▸ hid.symm) (by simpa using fun hh => hu hh.symm)
        · simp [hcu]
      · intro uc₀ h0
        unfold lookupUC at h0 ⊢
        simp only [List.find?_cons, hid, decide_True] at h0 ⊢
        rw [payoutUC_uid]
        simp only [hid, decide_True] at h0 ⊢
        injection h0 with h0'
        subst h0'
        simp
    · rw [if_neg hid] at h
      rcases hrec : creditFirst cfg today p rest with _ | l'
      · rw [hrec] at h; exact absurd h (by simp)
      · rw [hrec] at h
        simp only [Option.map_some'] at h
        injection h with h'
        subst h'
        obtain ⟨hne, heq⟩ := creditFirst_lookup rest cfg today p l' hrec
        constructor
        · intro u hu
          unfold lookupUC
          simp only [List.find?_cons]
          by_cases hcu : uc.uid = u
          · simp [hcu]
          · simp only [hcu, decide_False]
            exact hne u hu
        · intro uc₀ h0
          unfold lookupUC at h0 ⊢
          simp only [List.find?_cons, hid, decide_False] at h0 ⊢
          exact heq uc₀ h0

theorem creditFirst_none :
    ∀ (ucs : List UC) (cfg : Cfg) (today : ℤ) (p : Pos),
      creditFirst cfg today p ucs = none → lookupUC ucs p.uid = none
  | [], _, _, _, _ => rfl
  | uc :: rest, cfg, today, p, h => by
    unfold creditFirst at h
    by_cases hid : uc.uid = p.uid
    · rw [if_pos hid] at h; exact absurd h (by simp)
    · rw [if_neg hid] at h
      rcases hrec : creditFirst cfg today p rest with _ | l'
      · unfold lookupUC
        simp only [List.find?_cons, hid, decide_False]
        exact creditFirst_none rest cfg today p hrec
      · rw [hrec] at h; exact absurd h (by simp)

theorem lookupUC_creditOne_ne (cfg : Cfg) (today : ℤ) (ucs : List UC) (p : Pos)
    (u : ℕ) (hu : u ≠ p.uid) :
    lookupUC (creditOne cfg today ucs p) u = lookupUC ucs u := by
  unfold creditOne
  rcases hcf : creditFirst cfg today p ucs with _ | l
  · unfold lookupUC
    rw [List.find?_append]
    have hpn : p.uid ≠ u := fun h => hu h.symm
    have hnone : List.find? (fun uc => decide (uc.uid = u))
        [payoutUC cfg today p.shares ⟨p.uid, cfg.startBal, 0, none⟩] = none := by
      have huid : (payoutUC cfg today p.shares ⟨p.uid, cfg.startBal, 0, none⟩).uid
          = p.uid := payoutUC_uid cfg today p.shares ⟨p.uid, cfg.startBal, 0, none⟩
      simp [List.find?_cons, huid, hpn]
    rw [hnone]
    exact Option.or_none
  · exact (creditFirst_lookup ucs cfg today p l hcf).1 u hu

theorem lookupUC_creditOne_eq (cfg : Cfg) (today : ℤ) (ucs : List UC) (p : Pos)
    (uc₀ : UC) (h : lookupUC ucs p.uid = some uc₀) :
    lookupUC (creditOne cfg today ucs p) p.uid
      = some (payoutUC cfg today p.shares uc₀) := by
  unfold creditOne
  rcases hcf : creditFirst cfg today p ucs with _ | l
  · rw [creditFirst_none ucs cfg today p hcf] at h
    exact absurd h (by simp)
  · exact (creditFirst_lookup ucs cfg today p l hcf).2 uc₀ h

theorem foldl_creditOne_ne (cfg : Cfg) (today : ℤ) :
    ∀ (ps : List Pos) (ucs : List UC) (u : ℕ), (∀ p ∈ ps, p.uid ≠ u) →
      lookupUC (ps.foldl (creditOne cfg today) ucs) u = lookupUC ucs u
  | [], _, _, _ => rfl
  | p :: ps, ucs, u, h => by
    simp only [List.foldl_cons]
    rw [foldl_creditOne_ne cfg today ps _ u (fun x hx => h x (by simp [hx]))]
    exact lookupUC_creditOne_ne cfg today ucs p u
      (fun hu => h p (by simp) hu.symm)

theorem foldl_creditOne_eq (cfg : Cfg) (today : ℤ) :
    ∀ (ps : List Pos) (ucs : List UC) (p : Pos) (uc₀ : UC),
      p ∈ ps → ps.Pairwise (fun a b => a.uid ≠ b.uid) →
      lookupUC ucs p.uid = some uc₀ →
      lookupUC (ps.foldl (creditOne cfg today) ucs) p.uid
        = some (payoutUC cfg today p.shares uc₀)
  | [], _, _, _, hmem, _, _ => absurd hmem (by simp)
  | x :: ps, ucs, p, uc₀, hmem, hpw, h0 => by
    simp only [List.foldl_cons]
    rcases List.mem_cons.mp hmem with rfl | hmem'
    · rw [foldl_creditOne_ne cfg today ps _ p.uid
        (fun y hy => ((List.pairwise_cons.mp hpw).1 y hy).symm)]
      exact lookupUC_creditOne_eq cfg today ucs p uc₀ h0
    · have hx : x.uid ≠ p.uid := (List.pairwise_cons.mp hpw).1 p hmem'
      exact foldl_creditOne_eq cfg today ps (creditOne cfg today ucs x) p uc₀ hmem'
        (List.pairwise_cons.mp hpw).2
        (by rw [lookupUC_creditOne_ne cfg today ucs x p.uid (fun h => hx h.symm)]; exact h0)

/-- C7 counterexample: a winning holder whose account has NOT yet been
topped up today ends at balance `min(2000, 500+200) + 5 = 705`, an
increase of `205 ≠ 5` — `resolve` does not increase the balance by
exactly the share count in general, because it applies the lazy daily
top-up before crediting. -/
theorem resolve_counterexample :
    ∃ res, resolve ⟨1000, 200, 2000⟩ 0
        ⟨MStatus.opn, false, false, 100, 1, [⟨1, "A", 0⟩, ⟨2, "B", 0⟩]⟩ 1 "A"
        [⟨2, 1, 5⟩] [⟨2, 500, 0, none⟩] = .ok res ∧
      lookupUC res.ucs 2 = some ⟨2, 705, 0, some 0⟩ ∧ (705 : ℝ) ≠ 500 + 5 := by
  have hpay : payoutUC ⟨1000, 200, 2000⟩ 0 5 ⟨2, 500, 0, none⟩ = ⟨2, 705, 0, some 0⟩ := by
    unfold payoutUC ensure_daily_topup_for_usercycle
    rw [if_neg (by simp)]
    show UC.mk 2 (min 2000 (500 + 200) + 5) 0 (some 0) = UC.mk 2 705 0 (some 0)
    norm_num
  have hstep : lookupUC
      (creditOne ⟨1000, 200, 2000⟩ 0 [⟨2, 500, 0, none⟩] ⟨2, 1, 5⟩) 2
        = some ⟨2, 705, 0, some 0⟩ := by
    have h0 : lookupUC [(⟨2, 500, 0, none⟩ : UC)] 2 = some ⟨2, 500, 0, none⟩ := by
      unfold lookupUC
      simp
    have := lookupUC_creditOne_eq ⟨1000, 200, 2000⟩ 0 [⟨2, 500, 0, none⟩] ⟨2, 1, 5⟩
      ⟨2, 500, 0, none⟩ h0
    rw [show ((⟨2, 1, 5⟩ : Pos).shares) = (5:ℝ) from rfl, hpay] at this
    exact this
  refine ⟨_, rfl, ?_, by norm_num⟩
  show lookupUC
    ((([⟨2, 1, 5⟩] : List Pos).filter (fun p => decide (p.oid = (⟨1, "A", 0⟩ : Outc).oid))).foldl
      (creditOne ⟨1000, 200, 2000⟩ 0) [⟨2, 500, 0, none⟩]) 2 = some ⟨2, 705, 0, some 0⟩
  have hfilter : (([⟨2, 1, 5⟩] : List Pos).filter
      (fun p => decide (p.oid = (⟨1, "A", 0⟩ : Outc).oid))) = [⟨2, 1, 5⟩] := by
    simp [List.filter]
  rw [hfilter]
  simp only [List.foldl_cons, List.foldl_nil]
  exact hstep

/-- C7 (amended): `resolve` on an open market by its creator with a known
winning outcome transitions the market to resolved, leaves the position
rows untouched (losing positions are paid nothing and kept as-is), leaves
the account of every user without a winning position unchanged, and —
provided the holder's account row exists and has already received today's
top-up — increases each winning holder's balance by exactly their share
count (1 unit of account per share).  (Without that proviso the lazy
account creation and daily top-up run first; see the counterexample.) -/
theorem resolve_pays_winning_positions (cfg : Cfg) (today : ℤ) (m : MarketSt)
    (caller : ℕ) (winning : String) (positions : List Pos) (ucs : List UC) (out : Outc)
    (hst : m.status ≠ MStatus.resolved) (hcanc : m.cancelled = false)
    (hcr : m.creator = caller)
    (hfind : findExact m.outcomes winning = some out)
    (hnodup : (positions.filter (fun p => decide (p.oid = out.oid))).Pairwise
        (fun a b => a.uid ≠ b.uid))
    (htop : ∀ p ∈ positions.filter (fun p => decide (p.oid = out.oid)),
        ∀ uc₀, lookupUC ucs p.uid = some uc₀ → uc₀.lastTopup = some today) :
    ∃ res, resolve cfg today m caller winning positions ucs = .ok res ∧
      res.market.status = MStatus.resolved ∧
      res.positions = positions ∧
      (∀ p ∈ positions.filter (fun p => decide (p.oid = out.oid)), ∀ uc₀,
        lookupUC ucs p.uid = some uc₀ →
          lookupUC res.ucs p.uid = some { uc₀ with balance := uc₀.balance + p.shares }) ∧
      (∀ u : ℕ, (∀ p ∈ positions.filter (fun p => decide (p.oid = out.oid)), p.uid ≠ u) →
        lookupUC res.ucs u = lookupUC ucs u) := by
  refine ⟨⟨{ m with status := MStatus.resolved }, out.oid,
    (positions.filter (fun p => decide (p.oid = out.oid))).foldl
      (creditOne cfg today) ucs, positions⟩, ?_, rfl, rfl, ?_, ?_⟩
  · unfold resolve
    rw [if_neg hst, if_neg (by simp [hcanc]), if_neg (by simp [hcr]), hfind]
  · intro p hp uc₀ h0
    show lookupUC ((positions.filter (fun p => decide (p.oid = out.oid))).foldl
      (creditOne cfg today) ucs) p.uid = _
    rw [foldl_creditOne_eq cfg today _ ucs p uc₀ hp hnodup h0,
      payoutUC_topped cfg today p.shares uc₀ (htop p hp uc₀ h0)]
  · intro u hu
    exact foldl_creditOne_ne cfg today _ ucs u hu

/-- Witness for the amended C7: one winning holder (already topped up),
one losing holder, one non-participant. -/
theorem resolve_pays_winning_positions_witness :
    (MStatus.opn ≠ MStatus.resolved) ∧
      findExact [⟨1, "A", 0⟩, ⟨2, "B", 0⟩] "A" = some ⟨1, "A", 0⟩ ∧
      (∃ res, resolve ⟨1000, 200, 2000⟩ 0
          ⟨MStatus.opn, false, false, 100, 1, [⟨1, "A", 0⟩, ⟨2, "B", 0⟩]⟩ 1 "A"
          [⟨2, 1, 5⟩, ⟨3, 2, 7⟩] [⟨2, 500, 0, some 0⟩, ⟨3, 800, 2, some 0⟩] = .ok res ∧
        res.market.status = MStatus.resolved ∧
        res.positions = [⟨2, 1, 5⟩, ⟨3, 2, 7⟩] ∧
        (∀ p ∈ ([⟨2, 1, 5⟩, ⟨3, 2, 7⟩] : List Pos).filter
            (fun p => decide (p.oid = (⟨1, "A", (0:ℝ)⟩ : Outc).oid)), ∀ uc₀,
          lookupUC [⟨2, 500, 0, some 0⟩, ⟨3, 800, 2, some 0⟩] p.uid = some uc₀ →
            lookupUC res.ucs p.uid =
              some { uc₀ with balance := uc₀.balance + p.shares }) ∧
        (∀ u : ℕ, (∀ p ∈ ([⟨2, 1, 5⟩, ⟨3, 2, 7⟩] : List Pos).filter
              (fun p => decide (p.oid = (⟨1, "A", (0:ℝ)⟩ : Outc).oid)), p.uid ≠ u) →
          lookupUC res.ucs u =
            lookupUC [⟨2, 500, 0, some 0⟩, ⟨3, 800, 2, some 0⟩] u)) := by
  refine ⟨by decide, by simp [findExact], ?_⟩
  exact resolve_pays_winning_positions ⟨1000, 200, 2000⟩ 0
    ⟨MStatus.opn, false, false, 100, 1, [⟨1, "A", 0⟩, ⟨2, "B", 0⟩]⟩ 1 "A"
    [⟨2, 1, 5⟩, ⟨3, 2, 7⟩] [⟨2, 500, 0, some 0⟩, ⟨3, 800, 2, some 0⟩] ⟨1, "A", 0⟩
    (by decide) rfl rfl (by simp [findExact])
    (by simp [List.filter])
    (by
      intro p hp uc₀ h0
      have hp' : p = ⟨2, 1, 5⟩ := by simpa using hp
      subst hp'
      unfold lookupUC at h0
      rw [List.find?_cons_of_pos _ (by simp)] at h0
      injection h0 with h0'
      rw [← h0'])

/-! ### C10: buy/sell match case-insensitively, resolve exactly -/

theorem market_open_fields (m : MarketSt) (h : market_is_closed m = false) :
    m.status = MStatus.opn ∧ m.cancelled = false ∧ m.pastClose = false := by
  unfold market_is_closed at h
  by_cases h1 : m.status ≠ MStatus.opn
  · rw [if_pos h1] at h
    exact absurd h (by simp)
  · rw [if_neg h1] at h
    push_neg at h1
    by_cases h2 : m.cancelled = true
    · rw [if_pos h2] at h
      exact absurd h (by simp)
    · rw [if_neg h2] at h
      by_cases h3 : m.pastClose = true
      · rw [if_pos h3] at h
        exact absurd h (by simp)
      · exact ⟨h1, Bool.not_eq_true _ ▸ h2, Bool.not_eq_true _ ▸ h3⟩

/-- C10: with the guards preceding the lookup satisfied, `buy` and `sell`
fail with the unknown-outcome error exactly when no outcome symbol
matches the query up to upper-casing, whereas `resolve` fails with the
unknown-outcome error exactly when no outcome symbol equals the winning
symbol verbatim (case-sensitively). -/
theorem outcome_matching_case_rules (cfg : Cfg) (today : ℤ) (m : MarketSt)
    (uc : UC) (shares0 : Option ℝ) (sym wsym winning : String)
    (spend sharesReq : ℝ) (trades : List TradeRec) (caller : ℕ)
    (positions : List Pos) (ucs : List UC)
    (hspend : 0 < spend) (hshares : 0 < sharesReq)
    (hclosed : market_is_closed m = false)
    (hbal : spend ≤ (ensure_daily_topup_for_usercycle cfg today uc).balance)
    (hlen : 2 ≤ m.outcomes.length) (hcr : m.creator = caller) :
    (buy cfg today m uc shares0 sym spend trades = .error .unknownOutcome ↔
      ∀ o ∈ m.outcomes, o.symbol.toUpper ≠ sym.toUpper) ∧
    (sell cfg today m uc shares0 wsym sharesReq trades = .error .unknownOutcome ↔
      ∀ o ∈ m.outcomes, o.symbol.toUpper ≠ wsym.toUpper) ∧
    (resolve cfg today m caller winning positions ucs = .error .unknownOutcome ↔
      ∀ o ∈ m.outcomes, o.symbol ≠ winning) := by
  obtain ⟨hopn, hcancF, _⟩ := market_open_fields m hclosed
  have hne : m.outcomes ≠ [] := by
    intro h
    rw [h] at hlen
    simp at hlen
  have hempty : m.outcomes.isEmpty = false := by
    rcases hout : m.outcomes with _ | ⟨a, l⟩
    · exact absurd hout hne
    · rfl
  refine ⟨?_, ?_, ?_⟩
  · rw [← findCI_eq_none_iff]
    constructor
    · intro hbuy
      rcases hf : findCI m.outcomes sym with _ | i
      · rfl
      · exfalso
        unfold buy at hbuy
        rw [if_neg (not_le.mpr hspend), if_neg (by simp [hclosed]),
          if_neg (not_lt.mpr hbal), if_neg (not_lt.mpr hlen), hf] at hbuy
        split at hbuy
        · rename_i x heq
          exact absurd heq (by simp)
        · split at hbuy
          · simp at hbuy
          · split at hbuy
            · simp at hbuy
            · split at hbuy
              · simp at hbuy
              · split at hbuy
                · simp at hbuy
                · split at hbuy
                  · simp at hbuy
                  · simp at hbuy
    · intro hnone
      unfold buy
      rw [if_neg (not_le.mpr hspend), if_neg (by simp [hclosed]),
        if_neg (not_lt.mpr hbal), if_neg (not_lt.mpr hlen), hnone]
  · rw [← findCI_eq_none_iff]
    constructor
    · intro hsell
      rcases hf : findCI m.outcomes wsym with _ | i
      · rfl
      · exfalso
        unfold sell at hsell
        rw [if_neg (not_le.mpr hshares), if_neg (by simp [hclosed]),
          if_neg (by simp [hempty]), hf] at hsell
        split at hsell
        · rename_i x heq
          exact absurd heq (by simp)
        · split at hsell
          · simp at hsell
          · split at hsell
            · simp at hsell
            · split at hsell
              · simp at hsell
              · split at hsell
                · simp at hsell
                · simp at hsell
    · intro hnone
      unfold sell
      rw [if_neg (not_le.mpr hshares), if_neg (by simp [hclosed]),
        if_neg (by simp [hempty]), hnone]
  · rw [← findExact_eq_none_iff]
    constructor
    · intro hres
      rcases hf : findExact m.outcomes winning with _ | out
      · rfl
      · exfalso
        unfold resolve at hres
        rw [if_neg (by simp [hopn]), if_neg (by simp [hcancF]),
          if_neg (by simp [hcr]), hf] at hres
        split at hres
        · rename_i x heq
          exact absurd heq (by simp)
        · simp at hres
    · intro hnone
      unfold resolve
      rw [if_neg (by simp [hopn]), if_neg (by simp [hcancF]),
        if_neg (by simp [hcr]), hnone]

/-- Witness for C10 on a `["YES","NO"]` market queried with lower-case
symbols. -/
theorem outcome_matching_case_rules_witness :
    (0:ℝ) < 10 ∧ (0:ℝ) < 1 ∧
      market_is_closed
          ⟨MStatus.opn, false, false, 100, 1, [⟨1, "YES", 0⟩, ⟨2, "NO", 0⟩]⟩ = false ∧
      (10:ℝ) ≤ (ensure_daily_topup_for_usercycle ⟨1000, 200, 2000⟩ 0
          ⟨7, 1000, 0, some 0⟩).balance ∧
      ((buy ⟨1000, 200, 2000⟩ 0
          ⟨MStatus.opn, false, false, 100, 1, [⟨1, "YES", 0⟩, ⟨2, "NO", 0⟩]⟩
          ⟨7, 1000, 0, some 0⟩ none "yes" 10 [] = .error .unknownOutcome ↔
        ∀ o ∈ [(⟨1, "YES", 0⟩ : Outc), ⟨2, "NO", 0⟩],
          o.symbol.toUpper ≠ ("yes").toUpper) ∧
      (sell ⟨1000, 200, 2000⟩ 0
          ⟨MStatus.opn, false, false, 100, 1, [⟨1, "YES", 0⟩, ⟨2, "NO", 0⟩]⟩
          ⟨7, 1000, 0, some 0⟩ none "no" 1 [] = .error .unknownOutcome ↔
        ∀ o ∈ [(⟨1, "YES", 0⟩ : Outc), ⟨2, "NO", 0⟩],
          o.symbol.toUpper ≠ ("no").toUpper) ∧
      (resolve ⟨1000, 200, 2000⟩ 0
          ⟨MStatus.opn, false, false, 100, 1, [⟨1, "YES", 0⟩, ⟨2, "NO", 0⟩]⟩
          1 "yes" [] [] = .error .unknownOutcome ↔
        ∀ o ∈ [(⟨1, "YES", 0⟩ : Outc), ⟨2, "NO", 0⟩], o.symbol ≠ "yes")) := by
  refine ⟨by norm_num, by norm_num, rfl, ?_, ?_⟩
  · unfold ensure_daily_topup_for_usercycle
    rw [if_pos rfl]
    norm_num
  · exact outcome_matching_case_rules ⟨1000, 200, 2000⟩ 0
      ⟨MStatus.opn, false, false, 100, 1, [⟨1, "YES", 0⟩, ⟨2, "NO", 0⟩]⟩
      ⟨7, 1000, 0, some 0⟩ none "yes" "no" "yes" 10 1 [] 1 [] []
      (by norm_num) (by norm_num) rfl
      (by unfold ensure_daily_topup_for_usercycle; rw [if_pos rfl]; norm_num)
      (by simp) rfl

end Predictions
